import Mathlib

/-!
Shallow embedding of `src/allocator.c` (a thread-safe free-list allocator
with an allocation tracker and exit-time cleanup) and verification of its
specification claims.

Modelling conventions:
* `size_t` is modelled as `Nat`; wrap-around is made explicit with
  `% (SIZE_MAX + 1)` exactly where the C code can overflow.
* On x86-64 (the platform the source targets), `sizeof(max_align_t) = 32`
  and `sizeof(header_t) = 32` (a union of a four-word struct and
  `char[sizeof(max_align_t)]`).
* The chain `head → ... → tail` linked through `header_t.s.next` is
  modelled as `AState.blocks : List Block` in link order; the C `head`
  pointer is the first element and `tail` the last (malloc_a appends at the
  tail, and free_a's coalescing retargets `tail` exactly when it removes
  the final node, so the list view is faithful).
* The allocation-tracking list linked through `next_alloc` from
  `alloc_list_head` is `AState.allocList : List Nat` (block ids, head
  first).
* A pointer returned to a caller is modelled by the `id` of its block
  (ids are handed out by a counter at `mmap` time); `NULL` is `none`.
* `mmap` failure is modelled by the oracle flag `osFail`; MAP_ANONYMOUS
  regions are zero-filled, hence `data := List.replicate aligned_size 0`.
* Region contents are `data : List Nat` (one `Nat` per byte).  When
  coalescing absorbs a successor block, the 32 bytes that held the
  absorbed header become ordinary data; the C code never writes them, and
  no claim reads them, so they are modelled as zeros.
-/

/-- `SIZE_MAX` for 64-bit `size_t`. -/
def SIZE_MAX : Nat := 2 ^ 64 - 1

/-- `sizeof(max_align_t)` on x86-64 glibc. -/
def max_align_size : Nat := 32

/-- `sizeof(header_t)`: union of `{size_t; unsigned; ptr; ptr}` (32 bytes
with padding) and `char[sizeof(max_align_t)]`. -/
def header_size : Nat := 32

/-- One block: the `header_t` metadata fields observable through the API,
plus the bytes of the usable region that follows the header.  `id` models
the block's address identity. -/
structure Block where
  id : Nat
  size : Nat
  is_free : Bool
  data : List Nat
deriving DecidableEq

/-- The allocator's global state: the `head → tail` block chain, the
allocation-tracking list (`alloc_list_head`), the fresh-address counter,
and the `mmap`-failure oracle. -/
structure AState where
  blocks : List Block
  allocList : List Nat
  nextId : Nat
  osFail : Bool
deriving DecidableEq

/-- The global state at program start: both lists empty. -/
def initState : AState := ⟨[], [], 0, false⟩

/-- `(size + sizeof(max_align_t) - 1) & ~(sizeof(max_align_t) - 1)`.
For the power of two 32 and any value whose increment by 31 does not wrap
(guaranteed by the guard in `malloc_a`), the mask form equals rounding
down `size + 31` to a multiple of 32. -/
def align_up (size : Nat) : Nat :=
  (size + max_align_size - 1) / max_align_size * max_align_size

/-- `get_free_block`: first-fit scan of the block chain from `head`.
Returns the position in the chain together with the node found (the C
function returns the node's address). -/
def get_free_block : List Block → Nat → Option (Nat × Block)
  | [], _ => none
  | b :: rest, size =>
      if b.is_free = true ∧ size ≤ b.size then some (0, b)
      else (get_free_block rest size).map (fun ib => (ib.1 + 1, ib.2))

/-- In-place store `header->s.is_free = 0` at a chain position. -/
def setInUse : List Block → Nat → List Block
  | [], _ => []
  | b :: rest, 0 => { b with is_free := false } :: rest
  | b :: rest, i + 1 => b :: setInUse rest i

/-- `malloc_a`.  Guards and branches follow `src/allocator.c` lines 81-135:
zero-size check, overflow check before aligning, overflow check of
`sizeof(header_t) + aligned_size`, first-fit reuse, and otherwise a fresh
`mmap`-backed block appended at the tail of the chain and pushed onto the
head of the allocation-tracking list. -/
def malloc_a (st : AState) (size : Nat) : Option Nat × AState :=
  if size = 0 then (none, st)
  else if SIZE_MAX - max_align_size + 1 < size then (none, st)
  else
    if SIZE_MAX - header_size < align_up size then (none, st)
    else
      match get_free_block st.blocks (align_up size) with
      | some ib => (some ib.2.id, { st with blocks := setInUse st.blocks ib.1 })
      | none =>
          if st.osFail then (none, st)
          else
            (some st.nextId,
              { st with
                  blocks := st.blocks ++
                    [⟨st.nextId, align_up size, false, List.replicate (align_up size) 0⟩],
                  allocList := st.nextId :: st.allocList,
                  nextId := st.nextId + 1 })

/-- The tracker-unlink loop of `free_a` (lines 146-158): remove the first
occurrence of the block from the allocation-tracking list; if it is absent
the loop falls through and the list is unchanged. -/
def removeFirst : List Nat → Nat → List Nat
  | [], _ => []
  | x :: rest, p => if x = p then rest else x :: removeFirst rest p

/-- The forward-coalescing loop of `free_a` (lines 162-172): while the
successor exists and is free, absorb it — grow `size` by
`sizeof(header_t) + tmp->s.size` and relink past it.  Returns the grown
block and the remaining suffix of the chain. -/
def coalesce : Block → List Block → Block × List Block
  | b, [] => (b, [])
  | b, t :: rest =>
      if t.is_free then
        coalesce
          { b with
              size := b.size + (header_size + t.size),
              data := b.data ++ List.replicate header_size 0 ++ t.data }
          rest
      else (b, t :: rest)

/-- Locate the released block in the chain, flip it free, and run the
coalescing loop on its suffix. -/
def freeChain : List Block → Nat → List Block
  | [], _ => []
  | b :: rest, p =>
      if b.id = p then
        (coalesce { b with is_free := true } rest).1 ::
          (coalesce { b with is_free := true } rest).2
      else b :: freeChain rest p

/-- `free_a` (lines 137-175): a null pointer is a no-op; otherwise remove
the block from the tracking list, mark it free, and coalesce forward. -/
def free_a (st : AState) (block : Option Nat) : AState :=
  match block with
  | none => st
  | some p =>
      { st with
          allocList := removeFirst st.allocList p,
          blocks := freeChain st.blocks p }

/-- Byte store into a block's region: `memcpy(region_of p, src, src.length)`
(and with `src = List.replicate n 0` it is `memset(region_of p, 0, n)`).
Only the block(s) whose id is `p` are touched. -/
def writeBytes (chain : List Block) (p : Nat) (src : List Nat) : List Block :=
  chain.map (fun b =>
    if b.id = p then { b with data := src ++ b.data.drop src.length } else b)

/-- Dereference a caller pointer: find its block in the chain.  In C this
is the constant-time `(header_t *)block - 1`; dereferencing a pointer the
engine does not own is undefined behaviour, modelled as `none`. -/
def lookupBlock : List Block → Nat → Option Block
  | [], _ => none
  | b :: rest, p => if b.id = p then some b else lookupBlock rest p

/-- `calloc_a` (lines 218-236): zero-argument check, wrap-around multiply,
checked-division overflow test, then `malloc_a` and `memset 0`. -/
def calloc_a (st : AState) (num nsize : Nat) : Option Nat × AState :=
  if num = 0 ∨ nsize = 0 then (none, st)
  else
    if nsize ≠ num * nsize % (SIZE_MAX + 1) / num then (none, st)
    else
      match malloc_a st (num * nsize % (SIZE_MAX + 1)) with
      | (none, st2) => (none, st2)
      | (some q, st2) =>
          (some q,
            { st2 with
                blocks := writeBytes st2.blocks q
                  (List.replicate (num * nsize % (SIZE_MAX + 1)) 0) })

/-- `realloc_a` (lines 238-260): null pointer defers to `malloc_a`; zero
size frees; a block already big enough is returned as is; otherwise
allocate, `memcpy` the old block's `size` bytes, and free the old block —
unless the new allocation failed, in which case nothing is freed. -/
def realloc_a (st : AState) (block : Option Nat) (size : Nat) :
    Option Nat × AState :=
  match block with
  | none => malloc_a st size
  | some p =>
      if size = 0 then (none, free_a st (some p))
      else
        match lookupBlock st.blocks p with
        | none => (none, st)
        | some header =>
            if size ≤ header.size then (some p, st)
            else
              match malloc_a st size with
              | (none, st2) => (none, st2)
              | (some q, st2) =>
                  (some q,
                    free_a
                      { st2 with
                          blocks := writeBytes st2.blocks q
                            (header.data.take header.size) }
                      (some p))

/-- The body of `cleanup_a`'s walk (lines 183-193): iterate over the
tracking list as captured at entry (`next` is saved before each `free_a`,
and `free_a` unlinks only the node being visited, so the saved-next walk
visits exactly this sequence); free every block still marked in-use. -/
def cleanup_loop : List Nat → AState → AState
  | [], st => st
  | p :: rest, st =>
      match lookupBlock st.blocks p with
      | some b => if b.is_free then cleanup_loop rest st
                  else cleanup_loop rest (free_a st (some p))
      | none => cleanup_loop rest st

/-- `cleanup_a` (lines 180-196): walk the allocation-tracking list and
free every block not already free. -/
def cleanup_a (st : AState) : AState := cleanup_loop st.allocList st

/-- The invariant asserted by the specification for the Live-Allocation
Tracker: it contains exactly the ids of the in-use blocks. -/
def trackerExact (st : AState) : Prop :=
  (∀ b ∈ st.blocks, (b.is_free = false ↔ b.id ∈ st.allocList)) ∧
  (∀ p ∈ st.allocList, ∃ b ∈ st.blocks, b.id = p ∧ b.is_free = false)

instance (st : AState) : Decidable (trackerExact st) := by
  unfold trackerExact; infer_instance

/-- Spec-side closed form of the coalescing loop: the block after absorbing
a list of successors. -/
def absorb (b : Block) (F : List Block) : Block :=
  F.foldl
    (fun acc t =>
      { acc with
          size := acc.size + (header_size + t.size),
          data := acc.data ++ List.replicate header_size 0 ++ t.data }) b

/-- C1: the claim asserts the tracker holds exactly the in-use blocks,
including a block handed out by reusing a free-list entry.  Evaluating the
code on the trace allocate(1); release(p); allocate(1) from the initial
state refutes this: the second allocate returns block 0 by first-fit
reuse, so block 0 is in-use, yet the tracker does not list it — the reuse
path of `malloc_a` never re-inserts into the tracking list. -/
theorem tracker_misses_reused_block :
    (malloc_a (free_a (malloc_a initState 1).2 (malloc_a initState 1).1) 1).1
      = some 0 ∧
    ¬ trackerExact
      (malloc_a (free_a (malloc_a initState 1).2 (malloc_a initState 1).1) 1).2 := by
  exact ⟨by decide, by decide⟩

/-- C2: the claim asserts the shutdown sweep marks every still-outstanding
block free.  On the trace allocate(1); release(p); allocate(1) the second
allocate hands out block 0 (still outstanding at shutdown), but after
`cleanup_a` block 0 is still marked in-use: the sweep walks only the
tracking list, which lost block 0 at the release and never regained it. -/
theorem cleanup_misses_reused_block :
    (malloc_a (free_a (malloc_a initState 1).2 (malloc_a initState 1).1) 1).1
      = some 0 ∧
    ∃ b,
      lookupBlock
        (cleanup_a
          (malloc_a (free_a (malloc_a initState 1).2 (malloc_a initState 1).1) 1).2).blocks
        0 = some b ∧ b.is_free = false := by
  exact ⟨by decide, ⟨0, 32, false, List.replicate 32 0⟩, by decide, by decide⟩

/-- C10: `resize(null, 0)` takes the null-pointer branch first, so it
behaves as `allocate(0)`: it returns null, performs no release, and leaves
the allocator state unchanged. -/
theorem realloc_null_zero (st : AState) : realloc_a st none 0 = (none, st) := rfl

/-- C6: when the block's recorded size already satisfies a non-zero
request, `realloc_a` returns the same pointer and the state is unchanged
(no shrink-to-fit). -/
theorem realloc_noop (st : AState) (p s : Nat) (b : Block)
    (hb : lookupBlock st.blocks p = some b)
    (hs : s ≠ 0) (hfit : s ≤ b.size) :
    realloc_a st (some p) s = (some p, st) := by
  simp [realloc_a, hs, hb, hfit]

/-- Witness for C6 at a concrete state: one in-use 32-byte block, resized
down to 5 bytes. -/
theorem realloc_noop_witness :
    realloc_a ⟨[⟨0, 32, false, List.replicate 32 0⟩], [0], 1, false⟩ (some 0) 5
      = (some 0, ⟨[⟨0, 32, false, List.replicate 32 0⟩], [0], 1, false⟩) :=
  realloc_noop _ 0 5 ⟨0, 32, false, List.replicate 32 0⟩ (by decide) (by decide)
    (by decide)

/-- C8: `allocate(0)` returns null, and any size whose round-up to the
32-byte maximum scalar alignment exceeds `SIZE_MAX` is rejected with a
null result; in both cases the state is unchanged (failure is signalled
only through the null result). -/
theorem malloc_rejects_invalid_size (st : AState) :
    malloc_a st 0 = (none, st) ∧
    ∀ s, s ≤ SIZE_MAX → SIZE_MAX < align_up s → malloc_a st s = (none, st) := by
  refine ⟨rfl, fun s hs hov => ?_⟩
  have hle : align_up s ≤ s + max_align_size - 1 :=
    Nat.div_mul_le_self (s + max_align_size - 1) max_align_size
  have hpow : (2 : Nat) ^ 64 = 18446744073709551616 := by norm_num
  have hguard : SIZE_MAX - max_align_size + 1 < s := by
    simp only [SIZE_MAX, max_align_size] at *; omega
  have hs0 : s ≠ 0 := by
    simp only [SIZE_MAX, max_align_size] at *; omega
  simp [malloc_a, hs0, hguard]

/-- Witness for C8 at the concrete size `SIZE_MAX` itself, whose round-up
overflows. -/
theorem malloc_rejects_invalid_size_witness :
    malloc_a initState 18446744073709551615 = (none, initState) :=
  (malloc_rejects_invalid_size initState).2 18446744073709551615 (by decide)
    (by decide)

theorem get_free_block_get? :
    ∀ (l : List Block) (s i : Nat) (b : Block),
      get_free_block l s = some (i, b) →
      l.get? i = some b ∧ b.is_free = true ∧ s ≤ b.size := by
  intro l
  induction l with
  | nil => intro s i b h; simp [get_free_block] at h
  | cons a rest ih =>
      intro s i b h
      by_cases hc : a.is_free = true ∧ s ≤ a.size
      · rw [get_free_block, if_pos hc] at h
        simp only [Option.some.injEq, Prod.mk.injEq] at h
        obtain ⟨rfl, rfl⟩ := h
        exact ⟨rfl, hc.1, hc.2⟩
      · rw [get_free_block, if_neg hc] at h
        cases hg : get_free_block rest s with
        | none => rw [hg] at h; simp at h
        | some ib =>
            rw [hg] at h
            simp only [Option.map_some', Option.some.injEq, Prod.mk.injEq] at h
            obtain ⟨rfl, rfl⟩ := h
            obtain ⟨h1, h2, h3⟩ := ih s ib.1 ib.2 hg
            exact ⟨by simpa using h1, h2, h3⟩

theorem get_free_block_first :
    ∀ (l : List Block) (s i : Nat) (b : Block),
      get_free_block l s = some (i, b) →
      ∀ j a, j < i → l.get? j = some a → ¬(a.is_free = true ∧ s ≤ a.size) := by
  intro l
  induction l with
  | nil => intro s i b h; simp [get_free_block] at h
  | cons c rest ih =>
      intro s i b h j a hj ha
      by_cases hc : c.is_free = true ∧ s ≤ c.size
      · rw [get_free_block, if_pos hc] at h
        simp only [Option.some.injEq, Prod.mk.injEq] at h
        omega
      · rw [get_free_block, if_neg hc] at h
        cases hg : get_free_block rest s with
        | none => rw [hg] at h; simp at h
        | some ib =>
            rw [hg] at h
            simp only [Option.map_some', Option.some.injEq, Prod.mk.injEq] at h
            obtain ⟨rfl, rfl⟩ := h
            cases j with
            | zero =>
                simp only [List.get?_cons_zero, Option.some.injEq] at ha
                subst ha; exact hc
            | succ k =>
                simp only [List.get?_cons_succ] at ha
                exact ih s ib.1 ib.2 hg k a (by omega) ha

theorem get_free_block_of_exists :
    ∀ (l : List Block) (s : Nat),
      (∃ a ∈ l, a.is_free = true ∧ s ≤ a.size) →
      ∃ ib, get_free_block l s = some ib := by
  intro l
  induction l with
  | nil => intro s h; simp at h
  | cons c rest ih =>
      intro s h
      by_cases hc : c.is_free = true ∧ s ≤ c.size
      · exact ⟨(0, c), by rw [get_free_block, if_pos hc]⟩
      · obtain ⟨a, ha, hfit⟩ := h
        rcases List.mem_cons.1 ha with rfl | ha'
        · exact absurd hfit hc
        · obtain ⟨ib, hg⟩ := ih s ⟨a, ha', hfit⟩
          exact ⟨(ib.1 + 1, ib.2), by rw [get_free_block, if_neg hc, hg]; rfl⟩

theorem setInUse_eq_of_get? :
    ∀ (l : List Block) (i : Nat) (b : Block),
      l.get? i = some b →
      setInUse l i = l.take i ++ { b with is_free := false } :: l.drop (i + 1) := by
  intro l
  induction l with
  | nil => intro i b h; simp at h
  | cons c rest ih =>
      intro i b h
      cases i with
      | zero =>
          simp only [List.get?_cons_zero, Option.some.injEq] at h
          subst h; rfl
      | succ k =>
          simp only [List.get?_cons_succ] at h
          simp [setInUse, ih k b h]

theorem length_setInUse :
    ∀ (l : List Block) (i : Nat), (setInUse l i).length = l.length := by
  intro l
  induction l with
  | nil => intro i; rfl
  | cons c rest ih =>
      intro i
      cases i with
      | zero => rfl
      | succ k => simp [setInUse, ih k]

theorem setInUse_get?_ne :
    ∀ (l : List Block) (i j : Nat), j ≠ i →
      (setInUse l i).get? j = l.get? j := by
  intro l
  induction l with
  | nil => intro i j _; rfl
  | cons c rest ih =>
      intro i j hj
      cases i with
      | zero =>
          cases j with
          | zero => exact absurd rfl hj
          | succ k => rfl
      | succ m =>
          cases j with
          | zero => rfl
          | succ k => simpa [setInUse] using ih m k (by omega)

theorem setInUse_get?_eq :
    ∀ (l : List Block) (i : Nat) (b : Block),
      l.get? i = some b →
      (setInUse l i).get? i = some { b with is_free := false } := by
  intro l
  induction l with
  | nil => intro i b h; simp at h
  | cons c rest ih =>
      intro i b h
      cases i with
      | zero =>
          simp only [List.get?_cons_zero, Option.some.injEq] at h
          subst h; rfl
      | succ k =>
          simp only [List.get?_cons_succ] at h
          simpa [setInUse] using ih k b h

theorem setInUse_map_id :
    ∀ (l : List Block) (i : Nat),
      (setInUse l i).map Block.id = l.map Block.id := by
  intro l
  induction l with
  | nil => intro i; rfl
  | cons c rest ih =>
      intro i
      cases i with
      | zero => rfl
      | succ k => simp [setInUse, ih k]

/-- The reuse branch of `malloc_a`, exposed: valid size plus a successful
first-fit scan yield the found block's region and flip it in place. -/
theorem malloc_a_reuse (st : AState) (size i : Nat) (b : Block)
    (h0 : size ≠ 0)
    (h1 : ¬ SIZE_MAX - max_align_size + 1 < size)
    (h2 : ¬ SIZE_MAX - header_size < align_up size)
    (hg : get_free_block st.blocks (align_up size) = some (i, b)) :
    malloc_a st size = (some b.id, { st with blocks := setInUse st.blocks i }) := by
  simp [malloc_a, h0, h1, h2, hg]

/-- C3: for a valid size, when the chain holds a free block whose recorded
size meets the aligned request, `malloc_a` returns the region of the
first such block in list order, flips exactly that entry to in-use in
place (no split: its recorded size is kept), and requests no new OS
region (tracking list and id counter are untouched in the result). -/
theorem malloc_first_fit_reuse (st : AState) (size : Nat)
    (h0 : 0 < size)
    (h1 : size ≤ SIZE_MAX - max_align_size + 1)
    (h2 : align_up size ≤ SIZE_MAX - header_size)
    (hex : ∃ a ∈ st.blocks, a.is_free = true ∧ align_up size ≤ a.size) :
    ∃ i b, st.blocks.get? i = some b ∧ b.is_free = true ∧
      align_up size ≤ b.size ∧
      (∀ j a, j < i → st.blocks.get? j = some a →
        ¬(a.is_free = true ∧ align_up size ≤ a.size)) ∧
      malloc_a st size = (some b.id, { st with blocks := setInUse st.blocks i }) ∧
      setInUse st.blocks i =
        st.blocks.take i ++ { b with is_free := false } :: st.blocks.drop (i + 1) := by
  obtain ⟨ib, hg⟩ := get_free_block_of_exists _ _ hex
  obtain ⟨hget, hfree, hsz⟩ := get_free_block_get? _ _ _ _ hg
  exact ⟨ib.1, ib.2, hget, hfree, hsz, get_free_block_first _ _ _ _ hg,
    malloc_a_reuse st size ib.1 ib.2 h0.ne' (Nat.not_lt.2 h1) (Nat.not_lt.2 h2) hg,
    setInUse_eq_of_get? _ _ _ hget⟩

/-- Witness for C3: a chain holding one free 32-byte block satisfies a
5-byte request by first-fit reuse. -/
theorem malloc_first_fit_reuse_witness :
    ∃ i b,
      (AState.mk [⟨0, 32, true, List.replicate 32 0⟩] [] 1 false).blocks.get? i
        = some b ∧
      b.is_free = true ∧ align_up 5 ≤ b.size ∧
      (∀ j a, j < i →
        (AState.mk [⟨0, 32, true, List.replicate 32 0⟩] [] 1 false).blocks.get? j
          = some a →
        ¬(a.is_free = true ∧ align_up 5 ≤ a.size)) ∧
      malloc_a (AState.mk [⟨0, 32, true, List.replicate 32 0⟩] [] 1 false) 5 =
        (some b.id,
          { AState.mk [⟨0, 32, true, List.replicate 32 0⟩] [] 1 false with
              blocks :=
                setInUse
                  (AState.mk [⟨0, 32, true, List.replicate 32 0⟩] [] 1 false).blocks
                  i }) ∧
      setInUse (AState.mk [⟨0, 32, true, List.replicate 32 0⟩] [] 1 false).blocks i =
        (AState.mk [⟨0, 32, true, List.replicate 32 0⟩] [] 1 false).blocks.take i ++
          { b with is_free := false } ::
            (AState.mk [⟨0, 32, true, List.replicate 32 0⟩] [] 1 false).blocks.drop
              (i + 1) :=
  malloc_first_fit_reuse _ 5 (by decide) (by decide) (by decide)
    ⟨⟨0, 32, true, List.replicate 32 0⟩, by decide, by decide, by decide⟩

/-- C9: when `malloc_a` is satisfied by reuse, the only state change is
the chosen chain entry's free flag: every other chain position, the chain
length, the tracking list, and the id counter are unchanged. -/
theorem malloc_reuse_frame (st : AState) (size i : Nat) (b : Block)
    (h0 : 0 < size)
    (h1 : size ≤ SIZE_MAX - max_align_size + 1)
    (h2 : align_up size ≤ SIZE_MAX - header_size)
    (hg : get_free_block st.blocks (align_up size) = some (i, b)) :
    ∃ st', malloc_a st size = (some b.id, st') ∧
      st'.allocList = st.allocList ∧
      st'.nextId = st.nextId ∧
      st'.osFail = st.osFail ∧
      st'.blocks.length = st.blocks.length ∧
      (∀ j, j ≠ i → st'.blocks.get? j = st.blocks.get? j) ∧
      st'.blocks.get? i = some { b with is_free := false } :=
  ⟨_, malloc_a_reuse st size i b h0.ne' (Nat.not_lt.2 h1) (Nat.not_lt.2 h2) hg,
    rfl, rfl, rfl, length_setInUse _ _,
    fun j hj => setInUse_get?_ne _ _ _ hj,
    setInUse_get?_eq _ _ _ (get_free_block_get? _ _ _ _ hg).1⟩

/-- Witness for C9: reuse of the free block at position 1 of a two-block
chain leaves position 0 and all bookkeeping untouched. -/
theorem malloc_reuse_frame_witness :
    ∃ st',
      malloc_a
        (AState.mk
          [⟨3, 32, false, List.replicate 32 7⟩, ⟨5, 64, true, List.replicate 64 0⟩]
          [3] 9 false) 10 = (some 5, st') ∧
      st'.allocList =
        (AState.mk
          [⟨3, 32, false, List.replicate 32 7⟩, ⟨5, 64, true, List.replicate 64 0⟩]
          [3] 9 false).allocList ∧
      st'.nextId =
        (AState.mk
          [⟨3, 32, false, List.replicate 32 7⟩, ⟨5, 64, true, List.replicate 64 0⟩]
          [3] 9 false).nextId ∧
      st'.osFail =
        (AState.mk
          [⟨3, 32, false, List.replicate 32 7⟩, ⟨5, 64, true, List.replicate 64 0⟩]
          [3] 9 false).osFail ∧
      st'.blocks.length =
        (AState.mk
          [⟨3, 32, false, List.replicate 32 7⟩, ⟨5, 64, true, List.replicate 64 0⟩]
          [3] 9 false).blocks.length ∧
      (∀ j, j ≠ 1 →
        st'.blocks.get? j =
          (AState.mk
            [⟨3, 32, false, List.replicate 32 7⟩, ⟨5, 64, true, List.replicate 64 0⟩]
            [3] 9 false).blocks.get? j) ∧
      st'.blocks.get? 1 =
        some { (⟨5, 64, true, List.replicate 64 0⟩ : Block) with is_free := false } :=
  malloc_reuse_frame _ 10 1 ⟨5, 64, true, List.replicate 64 0⟩ (by decide)
    (by decide) (by decide) (by decide)

theorem absorb_id : ∀ (F : List Block) (b : Block), (absorb b F).id = b.id := by
  intro F
  induction F with
  | nil => intro b; rfl
  | cons t rest ih => intro b; simpa [absorb] using ih _

theorem absorb_is_free :
    ∀ (F : List Block) (b : Block), (absorb b F).is_free = b.is_free := by
  intro F
  induction F with
  | nil => intro b; rfl
  | cons t rest ih => intro b; simpa [absorb] using ih _

theorem absorb_size :
    ∀ (F : List Block) (b : Block),
      (absorb b F).size = b.size + (F.map (fun t => header_size + t.size)).sum := by
  intro F
  induction F with
  | nil => intro b; simp [absorb]
  | cons t rest ih =>
      intro b
      have := ih { b with
        size := b.size + (header_size + t.size),
        data := b.data ++ List.replicate header_size 0 ++ t.data }
      simp only [absorb, List.foldl_cons] at this ⊢
      simp only [this, List.map_cons, List.sum_cons]
      omega

/-- Closed form of the coalescing loop: it absorbs exactly the maximal
free prefix of the suffix and leaves the rest of the chain. -/
theorem coalesce_eq :
    ∀ (post : List Block) (b : Block),
      coalesce b post =
        (absorb b (post.takeWhile (fun t => t.is_free)),
          post.dropWhile (fun t => t.is_free)) := by
  intro post
  induction post with
  | nil => intro b; simp [coalesce, absorb]
  | cons t rest ih =>
      intro b
      by_cases ht : t.is_free
      · simp [coalesce, ht, List.takeWhile_cons, List.dropWhile_cons, ih, absorb]
      · simp [coalesce, ht, List.takeWhile_cons, List.dropWhile_cons, absorb]

theorem freeChain_split :
    ∀ (pre : List Block) (b : Block) (post : List Block) (p : Nat),
      (∀ a ∈ pre, a.id ≠ p) → b.id = p →
      freeChain (pre ++ b :: post) p =
        pre ++ (coalesce { b with is_free := true } post).1 ::
          (coalesce { b with is_free := true } post).2 := by
  intro pre
  induction pre with
  | nil => intro b post p _ hid; simp [freeChain, hid]
  | cons c rest ih =>
      intro b post p hpre hid
      have hc : c.id ≠ p := hpre c (List.mem_cons_self c rest)
      simp [freeChain, hc,
        ih b post p (fun a ha => hpre a (List.mem_cons_of_mem c ha)) hid]

theorem head?_dropWhile_is_free :
    ∀ (l : List Block) (t : Block),
      (l.dropWhile (fun t => t.is_free)).head? = some t → t.is_free = false := by
  intro l
  induction l with
  | nil => intro t h; simp [List.dropWhile] at h
  | cons c rest ih =>
      intro t h
      rw [List.dropWhile_cons] at h
      by_cases hc : c.is_free = true
      · rw [if_pos hc] at h
        exact ih t h
      · rw [if_neg hc] at h
        have hct : c = t := by
          rw [List.head?_cons, Option.some.injEq] at h
          exact h
        subst hct
        simpa using hc

theorem mem_takeWhile_is_free :
    ∀ (l : List Block) (t : Block),
      t ∈ l.takeWhile (fun t => t.is_free) → t.is_free = true := by
  intro l
  induction l with
  | nil => intro t h; simp [List.takeWhile] at h
  | cons c rest ih =>
      intro t h
      rw [List.takeWhile_cons] at h
      by_cases hc : c.is_free
      · simp only [hc, if_pos] at h
        rcases List.mem_cons.1 h with rfl | h'
        · exact hc
        · exact ih t h'
      · simp [hc] at h

/-- C4: releasing a live block marks it free, then absorbs exactly the
maximal run of free successors: the block's size grows by each absorbed
successor's header-plus-data size, the chain is relinked past them, the
free predecessors before the block are untouched, the loop stops at the
first in-use successor, and if the absorbed run reached the list tail the
released block becomes the new tail. -/
theorem free_forward_coalesce (st : AState) (p : Nat) (pre post : List Block)
    (b : Block)
    (hsplit : st.blocks = pre ++ b :: post)
    (hpre : ∀ a ∈ pre, a.id ≠ p)
    (hid : b.id = p)
    (hlive : b.is_free = false) :
    ∃ b2,
      free_a st (some p) =
        { st with
            allocList := removeFirst st.allocList p,
            blocks := pre ++ b2 :: post.dropWhile (fun t => t.is_free) } ∧
      b2.id = p ∧ b2.is_free = true ∧
      b2.size = b.size +
        ((post.takeWhile (fun t => t.is_free)).map
          (fun t => header_size + t.size)).sum ∧
      (∀ t ∈ post.takeWhile (fun t => t.is_free), t.is_free = true) ∧
      (∀ t, (post.dropWhile (fun t => t.is_free)).head? = some t →
        t.is_free = false) ∧
      (post.dropWhile (fun t => t.is_free) = [] →
        (free_a st (some p)).blocks = pre ++ [b2]) := by
  have hchain :
      freeChain st.blocks p =
        pre ++ absorb { b with is_free := true }
            (post.takeWhile (fun t => t.is_free)) ::
          post.dropWhile (fun t => t.is_free) := by
    rw [hsplit, freeChain_split pre b post p hpre hid, coalesce_eq]
  refine ⟨absorb { b with is_free := true } (post.takeWhile (fun t => t.is_free)),
    ?_, ?_, ?_, ?_, mem_takeWhile_is_free post, head?_dropWhile_is_free post, ?_⟩
  · show
      ({ st with
          allocList := removeFirst st.allocList p,
          blocks := freeChain st.blocks p } : AState) = _
    rw [hchain]
  · rw [absorb_id]; exact hid
  · rw [absorb_is_free]
  · rw [absorb_size]
  · intro hrest
    show freeChain st.blocks p = _
    rw [hchain, hrest]

/-- Witness for C4: releasing block 11 of the chain 10,11,12,13 (10 free,
11 in-use, 12 and 13 free) absorbs 12 and 13, grows the size from 32 to
32 + (32+64) + (32+32) = 192, leaves block 10 alone, and makes the
released block the new tail. -/
theorem free_forward_coalesce_witness :
    ∃ b2,
      free_a
        (AState.mk
          [Block.mk 10 32 true [], Block.mk 11 32 false [],
            Block.mk 12 64 true [], Block.mk 13 32 true []] [11] 14 false)
        (some 11) =
        { AState.mk
            [Block.mk 10 32 true [], Block.mk 11 32 false [],
              Block.mk 12 64 true [], Block.mk 13 32 true []] [11] 14 false with
            allocList := removeFirst [11] 11,
            blocks := [Block.mk 10 32 true []] ++ b2 ::
              ([Block.mk 12 64 true [], Block.mk 13 32 true []].dropWhile
                (fun t => t.is_free)) } ∧
      b2.id = 11 ∧ b2.is_free = true ∧
      b2.size = 32 +
        (([Block.mk 12 64 true [], Block.mk 13 32 true []].takeWhile
          (fun t => t.is_free)).map (fun t => header_size + t.size)).sum ∧
      (∀ t ∈ [Block.mk 12 64 true [], Block.mk 13 32 true []].takeWhile
          (fun t => t.is_free), t.is_free = true) ∧
      (∀ t, ([Block.mk 12 64 true [], Block.mk 13 32 true []].dropWhile
          (fun t => t.is_free)).head? = some t → t.is_free = false) ∧
      ([Block.mk 12 64 true [], Block.mk 13 32 true []].dropWhile
          (fun t => t.is_free) = [] →
        (free_a
          (AState.mk
            [Block.mk 10 32 true [], Block.mk 11 32 false [],
              Block.mk 12 64 true [], Block.mk 13 32 true []] [11] 14 false)
          (some 11)).blocks = [Block.mk 10 32 true []] ++ [b2]) :=
  free_forward_coalesce _ 11 [Block.mk 10 32 true []]
    [Block.mk 12 64 true [], Block.mk 13 32 true []] (Block.mk 11 32 false [])
    rfl (by decide) rfl rfl

/-- A failing `malloc_a` changes no allocator state: every failure branch
returns before mutating anything. -/
theorem malloc_a_none (st : AState) (s : Nat) (st2 : AState)
    (h : malloc_a st s = (none, st2)) : st2 = st := by
  by_cases h0 : s = 0
  · unfold malloc_a at h; rw [if_pos h0] at h
    simpa using (congrArg Prod.snd h).symm
  by_cases h1 : SIZE_MAX - max_align_size + 1 < s
  · unfold malloc_a at h; rw [if_neg h0, if_pos h1] at h
    simpa using (congrArg Prod.snd h).symm
  by_cases h2 : SIZE_MAX - header_size < align_up s
  · unfold malloc_a at h; rw [if_neg h0, if_neg h1, if_pos h2] at h
    simpa using (congrArg Prod.snd h).symm
  unfold malloc_a at h
  rw [if_neg h0, if_neg h1, if_neg h2] at h
  cases hg : get_free_block st.blocks (align_up s) with
  | some ib => rw [hg] at h; simp at h
  | none =>
      rw [hg] at h
      by_cases hos : st.osFail = true
      · rw [if_pos hos] at h
        simpa using (congrArg Prod.snd h).symm
      · rw [if_neg hos] at h; simp at h

/-- A successful `malloc_a` took one of exactly two paths: first-fit reuse
(flip one chain entry in place) or a fresh OS region (append a new zeroed
block at the chain tail, push its id on the tracking list, bump the
counter). -/
theorem malloc_a_some (st : AState) (s q : Nat) (st2 : AState)
    (h : malloc_a st s = (some q, st2)) :
    (∃ i b, get_free_block st.blocks (align_up s) = some (i, b) ∧ q = b.id ∧
      st2 = { st with blocks := setInUse st.blocks i }) ∨
    (get_free_block st.blocks (align_up s) = none ∧ st.osFail = false ∧
      q = st.nextId ∧
      st2 = { st with
        blocks := st.blocks ++
          [⟨st.nextId, align_up s, false, List.replicate (align_up s) 0⟩],
        allocList := st.nextId :: st.allocList,
        nextId := st.nextId + 1 }) := by
  by_cases h0 : s = 0
  · unfold malloc_a at h; rw [if_pos h0] at h; simp at h
  by_cases h1 : SIZE_MAX - max_align_size + 1 < s
  · unfold malloc_a at h; rw [if_neg h0, if_pos h1] at h; simp at h
  by_cases h2 : SIZE_MAX - header_size < align_up s
  · unfold malloc_a at h; rw [if_neg h0, if_neg h1, if_pos h2] at h; simp at h
  unfold malloc_a at h
  rw [if_neg h0, if_neg h1, if_neg h2] at h
  cases hg : get_free_block st.blocks (align_up s) with
  | some ib =>
      rw [hg] at h
      simp only [Prod.mk.injEq, Option.some.injEq] at h
      exact Or.inl ⟨ib.1, ib.2, rfl, h.1.symm, h.2.symm⟩
  | none =>
      rw [hg] at h
      by_cases hos : st.osFail = true
      · rw [if_pos hos] at h; simp at h
      · rw [if_neg hos] at h
        simp only [Prod.mk.injEq, Option.some.injEq] at h
        exact Or.inr ⟨rfl, Bool.not_eq_true _ ▸ hos, h.1.symm, h.2.symm⟩

/-- The region a successful `malloc_a` hands out belongs to an in-use
block of the resulting chain. -/
theorem malloc_a_some_mem (st : AState) (s q : Nat) (st2 : AState)
    (h : malloc_a st s = (some q, st2)) :
    ∃ a ∈ st2.blocks, a.id = q ∧ a.is_free = false := by
  rcases malloc_a_some st s q st2 h with
    ⟨i, b, hg, rfl, rfl⟩ | ⟨_, _, rfl, rfl⟩
  · have hget := (get_free_block_get? _ _ _ _ hg).1
    have hmem := List.get?_mem (setInUse_get?_eq _ _ _ hget)
    exact ⟨{ b with is_free := false }, hmem, rfl, rfl⟩
  · refine ⟨⟨st.nextId, align_up s, false, List.replicate (align_up s) 0⟩, ?_, rfl, rfl⟩
    simp

/-- After `memset(region, 0, n)` the region's first `n` bytes read back
as zeros, whichever chain node carries the written id. -/
theorem lookupBlock_writeBytes_replicate :
    ∀ (l : List Block) (q n : Nat),
      (∃ a ∈ l, a.id = q) →
      ∃ qb, lookupBlock (writeBytes l q (List.replicate n 0)) q = some qb ∧
        qb.data.take n = List.replicate n 0 := by
  intro l q n
  induction l with
  | nil => intro h; simp at h
  | cons c rest ih =>
      intro h
      by_cases hc : c.id = q
      · refine ⟨{ c with
          data := List.replicate n 0 ++ c.data.drop (List.replicate n 0).length },
            ?_, ?_⟩
        · simp [writeBytes, lookupBlock, hc]
        · exact List.take_left' (List.length_replicate n 0)
      · obtain ⟨a, ha, haq⟩ := h
        rcases List.mem_cons.1 ha with rfl | ha'
        · exact absurd haq hc
        · obtain ⟨qb, hq1, hq2⟩ := ih ⟨a, ha', haq⟩
          refine ⟨qb, ?_, hq2⟩
          simpa [writeBytes, lookupBlock, hc] using hq1

/-- When `calloc_a`'s checked division passes, the multiplication did not
wrap. -/
theorem calloc_no_overflow (num nsize : Nat)
    (hdiv : nsize = num * nsize % (SIZE_MAX + 1) / num) :
    num * nsize % (SIZE_MAX + 1) = num * nsize := by
  by_contra hne
  have hlt : num * nsize % (SIZE_MAX + 1) < SIZE_MAX + 1 :=
    Nat.mod_lt _ (by simp [SIZE_MAX])
  have hge : SIZE_MAX + 1 ≤ num * nsize := by
    by_contra hlt2
    exact hne (Nat.mod_eq_of_lt (by omega))
  have h1 : nsize * num ≤ num * nsize % (SIZE_MAX + 1) := by
    have h2 := Nat.div_mul_le_self (num * nsize % (SIZE_MAX + 1)) num
    rw [← hdiv] at h2
    exact h2
  have hcomm : num * nsize = nsize * num := Nat.mul_comm _ _
  omega

/-- C7: `calloc_a` returns null on a zero argument and on multiplication
overflow (detected by checked division on the wrapped product); otherwise
it fails exactly when the underlying `malloc_a` fails (leaving the state
unchanged), and on success the first `num * nsize` bytes of the returned
region are all zero. -/
theorem calloc_contract (st : AState) (num nsize : Nat) :
    (num = 0 ∨ nsize = 0 → calloc_a st num nsize = (none, st)) ∧
    (num ≠ 0 → nsize ≠ 0 → nsize ≠ num * nsize % (SIZE_MAX + 1) / num →
      calloc_a st num nsize = (none, st)) ∧
    (num ≠ 0 → nsize ≠ 0 → nsize = num * nsize % (SIZE_MAX + 1) / num →
      (∀ st2, malloc_a st (num * nsize) = (none, st2) →
        calloc_a st num nsize = (none, st)) ∧
      (∀ q st2, malloc_a st (num * nsize) = (some q, st2) →
        ∃ qb,
          calloc_a st num nsize =
            (some q,
              { st2 with
                  blocks :=
                    writeBytes st2.blocks q (List.replicate (num * nsize) 0) }) ∧
          lookupBlock (writeBytes st2.blocks q (List.replicate (num * nsize) 0)) q
            = some qb ∧
          qb.data.take (num * nsize) = List.replicate (num * nsize) 0)) := by
  refine ⟨?_, ?_, ?_⟩
  · intro h
    unfold calloc_a
    rw [if_pos h]
  · intro hnum hnsize hne
    unfold calloc_a
    rw [if_neg (by simp [hnum, hnsize]), if_pos hne]
  · intro hnum hnsize hdiv
    have hw : num * nsize % (SIZE_MAX + 1) = num * nsize :=
      calloc_no_overflow num nsize hdiv
    constructor
    · intro st2 hm
      have hres : calloc_a st num nsize = (none, st2) := by
        unfold calloc_a
        rw [if_neg (by simp [hnum, hnsize]), if_neg (not_not_intro hdiv), hw, hm]
      rw [hres, malloc_a_none st (num * nsize) st2 hm]
    · intro q st2 hm
      obtain ⟨a, ha, haq, _⟩ := malloc_a_some_mem st (num * nsize) q st2 hm
      obtain ⟨qb, hq1, hq2⟩ :=
        lookupBlock_writeBytes_replicate st2.blocks q (num * nsize) ⟨a, ha, haq⟩
      refine ⟨qb, ?_, hq1, hq2⟩
      unfold calloc_a
      rw [if_neg (by simp [hnum, hnsize]), if_neg (not_not_intro hdiv), hw, hm]

/-- Witness for C7: `zero_allocate(2, 3)` from the initial state succeeds
through a fresh 32-byte block and its first 6 bytes are zero. -/
theorem calloc_contract_witness :
    ∃ qb,
      calloc_a initState 2 3 =
        (some 0,
          { AState.mk [Block.mk 0 32 false (List.replicate 32 0)] [0] 1 false with
              blocks :=
                writeBytes
                  (AState.mk [Block.mk 0 32 false (List.replicate 32 0)] [0] 1
                    false).blocks 0 (List.replicate (2 * 3) 0) }) ∧
      lookupBlock
        (writeBytes
          (AState.mk [Block.mk 0 32 false (List.replicate 32 0)] [0] 1
            false).blocks 0 (List.replicate (2 * 3) 0)) 0 = some qb ∧
      qb.data.take (2 * 3) = List.replicate (2 * 3) 0 :=
  ((calloc_contract initState 2 3).2.2 (by decide) (by decide) (by decide)).2 0
    (AState.mk [Block.mk 0 32 false (List.replicate 32 0)] [0] 1 false)
    (by decide)

theorem lookupBlock_append_right :
    ∀ (l1 l2 : List Block) (p : Nat), (∀ a ∈ l1, a.id ≠ p) →
      lookupBlock (l1 ++ l2) p = lookupBlock l2 p := by
  intro l1
  induction l1 with
  | nil => intro l2 p _; rfl
  | cons c rest ih =>
      intro l2 p h
      have hc : c.id ≠ p := h c (List.mem_cons_self c rest)
      simp only [List.cons_append, lookupBlock, if_neg hc]
      exact ih l2 p (fun a ha => h a (List.mem_cons_of_mem c ha))

theorem lookupBlock_split (pre : List Block) (b : Block) (post : List Block)
    (p : Nat) (hpre : ∀ a ∈ pre, a.id ≠ p) (hid : b.id = p) :
    lookupBlock (pre ++ b :: post) p = some b := by
  rw [lookupBlock_append_right pre _ p hpre]
  simp [lookupBlock, hid]

theorem setInUse_append_left :
    ∀ (l1 l2 : List Block) (i : Nat), i < l1.length →
      setInUse (l1 ++ l2) i = setInUse l1 i ++ l2 := by
  intro l1
  induction l1 with
  | nil => intro l2 i h; simp at h
  | cons c rest ih =>
      intro l2 i h
      cases i with
      | zero => rfl
      | succ k =>
          simp only [List.cons_append, setInUse]
          exact congrArg (fun t => c :: t)
            (ih l2 k (by simp only [List.length_cons] at h; omega))

theorem setInUse_append_right :
    ∀ (l1 l2 : List Block) (k : Nat),
      setInUse (l1 ++ l2) (l1.length + k) = l1 ++ setInUse l2 k := by
  intro l1
  induction l1 with
  | nil => intro l2 k; simp
  | cons c rest ih =>
      intro l2 k
      simp only [List.cons_append, List.length_cons]
      rw [show rest.length + 1 + k = (rest.length + k) + 1 by omega]
      simp only [setInUse]
      rw [ih l2 k]

theorem mem_take_get? :
    ∀ (l : List Block) (i : Nat) (a : Block), a ∈ l.take i →
      ∃ j, j < i ∧ l.get? j = some a := by
  intro l
  induction l with
  | nil => intro i a h; simp at h
  | cons c rest ih =>
      intro i a h
      cases i with
      | zero => simp at h
      | succ k =>
          rw [List.take_succ_cons] at h
          rcases List.mem_cons.1 h with rfl | h'
          · exact ⟨0, Nat.succ_pos k, rfl⟩
          · obtain ⟨j, hj, hget⟩ := ih k a h'
            exact ⟨j + 1, Nat.succ_lt_succ hj, by simpa using hget⟩

theorem nodup_ids_get?_ne :
    ∀ (l : List Block), (l.map Block.id).Nodup →
      ∀ (i j : Nat) (x y : Block), i ≠ j →
        l.get? i = some x → l.get? j = some y → x.id ≠ y.id := by
  intro l
  induction l with
  | nil => intro _ i j x y _ hx _; simp at hx
  | cons c rest ih =>
      intro hnd i j x y hij hx hy
      rw [List.map_cons, List.nodup_cons] at hnd
      obtain ⟨hnotin, hnd'⟩ := hnd
      cases i with
      | zero =>
          cases j with
          | zero => exact absurd rfl hij
          | succ m =>
              simp only [List.get?_cons_zero, Option.some.injEq] at hx
              subst hx
              simp only [List.get?_cons_succ] at hy
              intro hxy
              exact hnotin (hxy ▸ List.mem_map_of_mem Block.id (List.get?_mem hy))
      | succ n =>
          cases j with
          | zero =>
              simp only [List.get?_cons_zero, Option.some.injEq] at hy
              subst hy
              simp only [List.get?_cons_succ] at hx
              intro hxy
              exact hnotin (hxy ▸ List.mem_map_of_mem Block.id (List.get?_mem hx))
          | succ m =>
              simp only [List.get?_cons_succ] at hx hy
              exact ih hnd' n m x y (by omega) hx hy

theorem forall_ids_ne_of_map_eq (l' l : List Block)
    (h : l'.map Block.id = l.map Block.id) (x : Nat)
    (hl : ∀ a ∈ l, a.id ≠ x) : ∀ a ∈ l', a.id ≠ x := by
  intro a ha hax
  have hmem : a.id ∈ l.map Block.id := h ▸ List.mem_map_of_mem Block.id ha
  obtain ⟨c, hc, hcid⟩ := List.mem_map.1 hmem
  exact hl c hc (hcid.trans hax)

theorem writeBytes_cons (c : Block) (rest : List Block) (q : Nat)
    (s : List Nat) :
    writeBytes (c :: rest) q s =
      (if c.id = q then { c with data := s ++ c.data.drop s.length } else c) ::
        writeBytes rest q s := rfl

theorem writeBytes_append (l1 l2 : List Block) (q : Nat) (s : List Nat) :
    writeBytes (l1 ++ l2) q s = writeBytes l1 q s ++ writeBytes l2 q s :=
  List.map_append _ _ _

theorem writeBytes_map_id :
    ∀ (l : List Block) (q : Nat) (s : List Nat),
      (writeBytes l q s).map Block.id = l.map Block.id := by
  intro l q s
  induction l with
  | nil => rfl
  | cons c rest ih =>
      rw [writeBytes_cons]
      by_cases hc : c.id = q
      · simp only [if_pos hc, List.map_cons, ih]
      · simp only [if_neg hc, List.map_cons, ih]

theorem lookupBlock_dropWhile :
    ∀ (X : List Block) (qb : Block) (Y : List Block) (q : Nat),
      (∀ a ∈ X, a.id ≠ q) → qb.is_free = false → qb.id = q →
      lookupBlock ((X ++ qb :: Y).dropWhile (fun t => t.is_free)) q = some qb := by
  intro X
  induction X with
  | nil =>
      intro qb Y q _ hqf hqb
      rw [List.nil_append, List.dropWhile_cons]
      simp only [hqf, Bool.false_eq_true, if_false]
      simp [lookupBlock, hqb]
  | cons c X' ih =>
      intro qb Y q hX hqf hqb
      rw [List.cons_append, List.dropWhile_cons]
      by_cases hc : c.is_free = true
      · rw [if_pos hc]
        exact ih qb Y q (fun a ha => hX a (List.mem_cons_of_mem c ha)) hqf hqb
      · rw [if_neg hc]
        have hcq : c.id ≠ q := hX c (List.mem_cons_self c X')
        simp only [lookupBlock, if_neg hcq]
        rw [lookupBlock_append_right X' _ q
          (fun a ha => hX a (List.mem_cons_of_mem c ha))]
        simp [lookupBlock, hqb]

theorem lookup_after_free_right (pre2 : List Block) (b2 : Block) (X : List Block)
    (qb : Block) (Y : List Block) (q : Nat)
    (hpre : ∀ a ∈ pre2, a.id ≠ q) (hb2 : b2.id ≠ q)
    (hX : ∀ a ∈ X, a.id ≠ q) (hqb : qb.id = q) (hqf : qb.is_free = false) :
    lookupBlock (pre2 ++ b2 :: ((X ++ qb :: Y).dropWhile (fun t => t.is_free))) q
      = some qb := by
  rw [lookupBlock_append_right pre2 _ q hpre]
  simp only [lookupBlock, if_neg hb2]
  exact lookupBlock_dropWhile X qb Y q hX hqf hqb

theorem get?_append_mid (pre : List Block) (b : Block) (post : List Block) :
    (pre ++ b :: post).get? pre.length = some b := by
  rw [List.get?_append_right (Nat.le_refl _)]
  simp

theorem get?_append_mid_right (pre : List Block) (b : Block) (post : List Block)
    (k : Nat) : (pre ++ b :: post).get? (pre.length + 1 + k) = post.get? k := by
  rw [List.get?_append_right (by omega)]
  rw [show pre.length + 1 + k - pre.length = k + 1 by omega]
  simp

/-- After a grow-`realloc_a`'s copy-and-free step, when the new block sits
to the right of the released block in the chain: the new region reads back
with the copied prefix, and the released block is marked free. -/
theorem realloc_final_lookups_right (st2 : AState) (p q : Nat) (b : Block)
    (pre2 X Y : List Block) (qb0 : Block) (src : List Nat)
    (hblocks : st2.blocks = pre2 ++ b :: (X ++ qb0 :: Y))
    (hpre2p : ∀ a ∈ pre2, a.id ≠ p)
    (hpre2q : ∀ a ∈ pre2, a.id ≠ q)
    (hXq : ∀ a ∈ X, a.id ≠ q)
    (hbp : b.id = p) (hbq : b.id ≠ q)
    (hqb : qb0.id = q) (hqbf : qb0.is_free = false) :
    (∃ qbf,
      lookupBlock
        (free_a { st2 with blocks := writeBytes st2.blocks q src }
          (some p)).blocks q = some qbf ∧
      qbf.data = src ++ qb0.data.drop src.length) ∧
    (∃ pb,
      lookupBlock
        (free_a { st2 with blocks := writeBytes st2.blocks q src }
          (some p)).blocks p = some pb ∧ pb.is_free = true) := by
  have hwb : writeBytes st2.blocks q src =
      writeBytes pre2 q src ++ b ::
        (writeBytes X q src ++
          { qb0 with data := src ++ qb0.data.drop src.length } ::
            writeBytes Y q src) := by
    rw [hblocks, writeBytes_append, writeBytes_cons, if_neg hbq,
      writeBytes_append, writeBytes_cons, if_pos hqb]
  have hpre3p : ∀ a ∈ writeBytes pre2 q src, a.id ≠ p :=
    forall_ids_ne_of_map_eq _ pre2 (writeBytes_map_id pre2 q src) p hpre2p
  have hfc : (free_a { st2 with blocks := writeBytes st2.blocks q src }
      (some p)).blocks =
      writeBytes pre2 q src ++
        absorb { b with is_free := true }
          ((writeBytes X q src ++
            { qb0 with data := src ++ qb0.data.drop src.length } ::
              writeBytes Y q src).takeWhile (fun t => t.is_free)) ::
        ((writeBytes X q src ++
          { qb0 with data := src ++ qb0.data.drop src.length } ::
            writeBytes Y q src).dropWhile (fun t => t.is_free)) := by
    show freeChain (writeBytes st2.blocks q src) p = _
    rw [hwb, freeChain_split _ _ _ _ hpre3p hbp, coalesce_eq]
  constructor
  · refine ⟨{ qb0 with data := src ++ qb0.data.drop src.length }, ?_, rfl⟩
    rw [hfc]
    exact lookup_after_free_right _ _ _ _ _ _
      (forall_ids_ne_of_map_eq _ pre2 (writeBytes_map_id pre2 q src) q hpre2q)
      (by rw [absorb_id]; exact hbq)
      (forall_ids_ne_of_map_eq _ X (writeBytes_map_id X q src) q hXq)
      hqb hqbf
  · rw [hfc]
    exact ⟨_, lookupBlock_split _ _ _ _ hpre3p (by rw [absorb_id]; exact hbp),
      by rw [absorb_is_free]⟩

/-- After a grow-`realloc_a`'s copy-and-free step, when the new block sits
to the left of the released block in the chain: same conclusions. -/
theorem realloc_final_lookups_left (st2 : AState) (p q : Nat) (b : Block)
    (A B2 post2 : List Block) (qb0 : Block) (src : List Nat)
    (hblocks : st2.blocks = (A ++ qb0 :: B2) ++ b :: post2)
    (hAq : ∀ a ∈ A, a.id ≠ q)
    (hprep : ∀ a ∈ A ++ qb0 :: B2, a.id ≠ p)
    (hbp : b.id = p) (hbq : b.id ≠ q)
    (hqb : qb0.id = q) :
    (∃ qbf,
      lookupBlock
        (free_a { st2 with blocks := writeBytes st2.blocks q src }
          (some p)).blocks q = some qbf ∧
      qbf.data = src ++ qb0.data.drop src.length) ∧
    (∃ pb,
      lookupBlock
        (free_a { st2 with blocks := writeBytes st2.blocks q src }
          (some p)).blocks p = some pb ∧ pb.is_free = true) := by
  have hwb : writeBytes st2.blocks q src =
      writeBytes (A ++ qb0 :: B2) q src ++ b :: writeBytes post2 q src := by
    rw [hblocks, writeBytes_append, writeBytes_cons, if_neg hbq]
  have hexp : writeBytes (A ++ qb0 :: B2) q src =
      writeBytes A q src ++
        { qb0 with data := src ++ qb0.data.drop src.length } ::
          writeBytes B2 q src := by
    rw [writeBytes_append, writeBytes_cons, if_pos hqb]
  have hpre3p : ∀ a ∈ writeBytes (A ++ qb0 :: B2) q src, a.id ≠ p :=
    forall_ids_ne_of_map_eq _ _ (writeBytes_map_id (A ++ qb0 :: B2) q src) p hprep
  have hfc : (free_a { st2 with blocks := writeBytes st2.blocks q src }
      (some p)).blocks =
      writeBytes (A ++ qb0 :: B2) q src ++
        absorb { b with is_free := true }
          ((writeBytes post2 q src).takeWhile (fun t => t.is_free)) ::
        ((writeBytes post2 q src).dropWhile (fun t => t.is_free)) := by
    show freeChain (writeBytes st2.blocks q src) p = _
    rw [hwb, freeChain_split _ _ _ _ hpre3p hbp, coalesce_eq]
  constructor
  · refine ⟨{ qb0 with data := src ++ qb0.data.drop src.length }, ?_, rfl⟩
    rw [hfc, hexp, List.append_assoc, List.cons_append]
    rw [lookupBlock_append_right _ _ q
      (forall_ids_ne_of_map_eq _ A (writeBytes_map_id A q src) q hAq)]
    simp only [lookupBlock]
    rw [if_pos (show ({ qb0 with
      data := src ++ qb0.data.drop src.length } : Block).id = q from hqb)]
  · rw [hfc]
    exact ⟨_, lookupBlock_split _ _ _ _ hpre3p (by rw [absorb_id]; exact hbp),
      by rw [absorb_is_free]⟩

/-- C5: for a grow-`resize` on a live block (recorded size strictly below
the request): if the new allocation fails, `realloc_a` returns null with
the allocator state — and in particular the original block — completely
unchanged; if it succeeds, the returned region is a different block whose
first `min(old size, new size)` bytes equal the original block's leading
bytes, and the original block has been released (marked free). -/
theorem realloc_grow_spec (st : AState) (p s : Nat) (pre post : List Block)
    (b : Block)
    (hsplit : st.blocks = pre ++ b :: post)
    (hpre : ∀ a ∈ pre, a.id ≠ p)
    (hid : b.id = p)
    (hlive : b.is_free = false)
    (hgrow : b.size < s)
    (hdata : b.data.length = b.size)
    (hnodup : (st.blocks.map Block.id).Nodup)
    (hfresh : ∀ a ∈ st.blocks, a.id < st.nextId) :
    ((malloc_a st s).1 = none → realloc_a st (some p) s = (none, st)) ∧
    (∀ q st2, malloc_a st s = (some q, st2) →
      q ≠ p ∧
      ∃ stF, realloc_a st (some p) s = (some q, stF) ∧
        (∃ qb, lookupBlock stF.blocks q = some qb ∧
          qb.data.take (min b.size s) = b.data.take (min b.size s)) ∧
        (∃ pb, lookupBlock stF.blocks p = some pb ∧ pb.is_free = true)) := by
  have hlook : lookupBlock st.blocks p = some b := by
    rw [hsplit]; exact lookupBlock_split pre b post p hpre hid
  have hs0 : s ≠ 0 := by omega
  have hnsz : ¬ s ≤ b.size := by omega
  have hsrclen : (b.data.take b.size).length = b.size := by simp [hdata]
  have hmin : min b.size s = b.size := Nat.min_eq_left (Nat.le_of_lt hgrow)
  constructor
  · intro hm1
    rcases hml : malloc_a st s with ⟨o, st2'⟩
    rw [hml] at hm1
    replace hm1 : o = none := hm1
    subst hm1
    have hst : st2' = st := malloc_a_none st s st2' hml
    subst hst
    simp [realloc_a, hs0, hlook, hnsz, hml]
  · intro q st2 hm
    have hre : realloc_a st (some p) s =
        (some q, free_a
          { st2 with blocks := writeBytes st2.blocks q (b.data.take b.size) }
          (some p)) := by
      simp [realloc_a, hs0, hlook, hnsz, hm]
    rcases malloc_a_some st s q st2 hm with ⟨i, fb, hg, hq, hst2⟩ |
      ⟨hgn, hosf, hq, hst2⟩
    · -- first-fit reuse path
      obtain ⟨hgeti, hfbfree, hfbsz⟩ := get_free_block_get? _ _ _ _ hg
      have hgetb : st.blocks.get? pre.length = some b := by
        rw [hsplit]; exact get?_append_mid pre b post
      have hib : i ≠ pre.length := by
        intro hie
        rw [hie, hgetb] at hgeti
        simp only [Option.some.injEq] at hgeti
        rw [← hgeti] at hfbfree
        rw [hlive] at hfbfree
        simp at hfbfree
      subst hq
      subst hst2
      have hqp : fb.id ≠ p := by
        intro hqp'
        exact nodup_ids_get?_ne st.blocks hnodup i pre.length fb b hib hgeti
          hgetb (hqp'.trans hid.symm)
      rcases Nat.lt_or_ge i pre.length with hi | hi
      · -- new block lies before the released block
        have hgeti' : pre.get? i = some fb := by
          rw [hsplit] at hgeti
          rwa [List.get?_append hi] at hgeti
        have hsi : setInUse st.blocks i =
            (pre.take i ++ { fb with is_free := false } :: pre.drop (i + 1)) ++
              b :: post := by
          rw [hsplit, setInUse_append_left pre _ i hi,
            setInUse_eq_of_get? pre i fb hgeti']
        have hAq : ∀ a ∈ pre.take i, a.id ≠ fb.id := by
          intro a ha
          obtain ⟨j, hj, hjget⟩ := mem_take_get? pre i a ha
          have hjs : st.blocks.get? j = some a := by
            rw [hsplit, List.get?_append (lt_trans hj hi)]
            exact hjget
          exact nodup_ids_get?_ne st.blocks hnodup j i a fb (by omega) hjs hgeti
        have hprep2 : ∀ a ∈
            pre.take i ++ { fb with is_free := false } :: pre.drop (i + 1),
            a.id ≠ p := by
          apply forall_ids_ne_of_map_eq _ pre _ p hpre
          rw [← setInUse_eq_of_get? pre i fb hgeti']
          exact setInUse_map_id pre i
        have hlooks := realloc_final_lookups_left
          { st with blocks := setInUse st.blocks i } p fb.id b
          (pre.take i) (pre.drop (i + 1)) post { fb with is_free := false }
          (b.data.take b.size)
          (by show setInUse st.blocks i = _; rw [hsi])
          hAq hprep2 hid (fun hh => hqp (hh.symm.trans hid)) rfl
        refine ⟨hqp, _, hre, ?_, hlooks.2⟩
        obtain ⟨qbf, hq1, hq2⟩ := hlooks.1
        exact ⟨qbf, hq1, by rw [hmin, hq2, List.take_left' hsrclen]⟩
      · -- new block lies after the released block
        have hi' : pre.length < i := lt_of_le_of_ne hi (Ne.symm hib)
        obtain ⟨k, rfl⟩ : ∃ k, i = pre.length + 1 + k :=
          ⟨i - pre.length - 1, by omega⟩
        have hgetk : post.get? k = some fb := by
          rw [hsplit, get?_append_mid_right] at hgeti
          exact hgeti
        have hsi : setInUse st.blocks (pre.length + 1 + k) =
            pre ++ b ::
              (post.take k ++ { fb with is_free := false } ::
                post.drop (k + 1)) := by
          rw [hsplit, show pre.length + 1 + k = pre.length + (1 + k) by omega,
            setInUse_append_right pre _ (1 + k), show 1 + k = k + 1 by omega]
          simp only [setInUse]
          rw [setInUse_eq_of_get? post k fb hgetk]
        have hpre2q : ∀ a ∈ pre, a.id ≠ fb.id := by
          intro a ha
          obtain ⟨j, hjget⟩ := List.mem_iff_get?.1 ha
          obtain ⟨hjlt, -⟩ := List.get?_eq_some.1 hjget
          have hjs : st.blocks.get? j = some a := by
            rw [hsplit, List.get?_append hjlt]
            exact hjget
          exact nodup_ids_get?_ne st.blocks hnodup j (pre.length + 1 + k) a fb
            (by omega) hjs hgeti
        have hXq : ∀ a ∈ post.take k, a.id ≠ fb.id := by
          intro a ha
          obtain ⟨j, hj, hjget⟩ := mem_take_get? post k a ha
          have hjs : st.blocks.get? (pre.length + 1 + j) = some a := by
            rw [hsplit, get?_append_mid_right]
            exact hjget
          exact nodup_ids_get?_ne st.blocks hnodup (pre.length + 1 + j)
            (pre.length + 1 + k) a fb (by omega) hjs hgeti
        have hlooks := realloc_final_lookups_right
          { st with blocks := setInUse st.blocks (pre.length + 1 + k) } p fb.id b
          pre (post.take k) (post.drop (k + 1)) { fb with is_free := false }
          (b.data.take b.size)
          (by show setInUse st.blocks _ = _; rw [hsi])
          hpre hpre2q hXq hid (fun hh => hqp (hh.symm.trans hid)) rfl rfl
        refine ⟨hqp, _, hre, ?_, hlooks.2⟩
        obtain ⟨qbf, hq1, hq2⟩ := hlooks.1
        exact ⟨qbf, hq1, by rw [hmin, hq2, List.take_left' hsrclen]⟩
    · -- fresh OS region path
      subst hq
      subst hst2
      have hbmem : b ∈ st.blocks := by
        rw [hsplit]; exact List.mem_append_right _ (List.mem_cons_self _ _)
      have hqp : st.nextId ≠ p := by
        intro he
        have hblt := hfresh b hbmem
        omega
      have hpreq : ∀ a ∈ pre, a.id ≠ st.nextId := by
        intro a ha hax
        have := hfresh a (by rw [hsplit]; exact List.mem_append_left _ ha)
        omega
      have hXq : ∀ a ∈ post, a.id ≠ st.nextId := by
        intro a ha hax
        have := hfresh a
          (by rw [hsplit]
              exact List.mem_append_right _ (List.mem_cons_of_mem _ ha))
        omega
      have hbq : b.id ≠ st.nextId := by
        have := hfresh b hbmem
        omega
      have hlooks := realloc_final_lookups_right
        { st with
            blocks := st.blocks ++
              [⟨st.nextId, align_up s, false, List.replicate (align_up s) 0⟩],
            allocList := st.nextId :: st.allocList,
            nextId := st.nextId + 1 } p st.nextId b
        pre post []
        ⟨st.nextId, align_up s, false, List.replicate (align_up s) 0⟩
        (b.data.take b.size)
        (by show st.blocks ++ _ = _
            rw [hsplit, List.append_assoc, List.cons_append])
        hpre hpreq hXq hid hbq rfl rfl
      refine ⟨hqp, _, hre, ?_, hlooks.2⟩
      obtain ⟨qbf, hq1, hq2⟩ := hlooks.1
      exact ⟨qbf, hq1, by rw [hmin, hq2, List.take_left' hsrclen]⟩

/-- Witness for C5: growing a 32-byte live block to 40 bytes from a
one-block chain; the new allocation is a fresh 64-byte block, the 32
copied bytes read back, and the old block ends up free. -/
theorem realloc_grow_spec_witness :
    (1 : Nat) ≠ 0 ∧
    ∃ stF,
      realloc_a
        (AState.mk [Block.mk 0 32 false (List.replicate 32 7)] [0] 1 false)
        (some 0) 40 = (some 1, stF) ∧
      (∃ qb, lookupBlock stF.blocks 1 = some qb ∧
        qb.data.take (min 32 40) = (List.replicate 32 7).take (min 32 40)) ∧
      (∃ pb, lookupBlock stF.blocks 0 = some pb ∧ pb.is_free = true) :=
  (realloc_grow_spec
    (AState.mk [Block.mk 0 32 false (List.replicate 32 7)] [0] 1 false)
    0 40 [] [] (Block.mk 0 32 false (List.replicate 32 7))
    rfl (by simp) rfl rfl (by decide) (by decide) (by decide) (by decide)).2
    1
    (AState.mk
      [Block.mk 0 32 false (List.replicate 32 7),
        Block.mk 1 64 false (List.replicate 64 0)] [1, 0] 2 false)
    (by decide)
